import Mathlib

/-!
Shallow embedding of the Resume Semantic Search MVP core
(`src/domain_classifier.py`, `src/services/mapping_service.py`,
`src/text_profile_parser.py`, `src/vector_db.py`) together with proofs
about the claims of the specification.

Strings are modelled through their character lists (`String.data`);
Python `float` arithmetic on confidences is modelled by exact rationals
and the vector-store similarity arithmetic by real numbers.
-/

namespace ResumeMatcher

/-! ## Basic string helpers (Python `str` operations, ASCII fragment) -/

/-- Python whitespace characters recognised by `str.strip()` / `\s` (ASCII). -/
def isPySpace (c : Char) : Bool :=
  c = ' ' || c = '\t' || c = '\n' || c = '\r' || c = '\x0b' || c = '\x0c'

/-- ASCII lower-casing of one character, the fragment of `str.lower()`
used by the repository (all dictionary data is ASCII). -/
def pyLowerChar (c : Char) : Char :=
  if 'A' ≤ c ∧ c ≤ 'Z' then Char.ofNat (c.toNat + 32) else c

/-- `text.lower()` on ASCII text. -/
def toLowerStr (s : String) : String :=
  String.mk (s.data.map pyLowerChar)

/-- Strip characters satisfying `p` from both ends of a character list. -/
def stripList (p : Char → Bool) (l : List Char) : List Char :=
  ((l.dropWhile p).reverse.dropWhile p).reverse

/-- Python `s.strip()` (whitespace strip). -/
def pyStripWs (s : String) : String :=
  String.mk (stripList isPySpace s.data)

/-- Python `s.strip(chars)` for an explicit character set. -/
def stripChars (s : String) (cs : List Char) : String :=
  String.mk (stripList (fun c => cs.contains c) s.data)

/-- Is `n` a prefix of `h` (character lists)? -/
def isPrefixL : List Char → List Char → Bool
  | [], _ => true
  | _ :: _, [] => false
  | a :: as, b :: bs => a = b && isPrefixL as bs

/-- Python substring membership `n in h`, on character lists. -/
def isInfixL (n : List Char) : List Char → Bool
  | [] => isPrefixL n []
  | c :: t => isPrefixL n (c :: t) || isInfixL n t

/-- Python `sub in s` on strings. -/
def strContains (s sub : String) : Bool :=
  isInfixL sub.data s.data

/-- Python `s.startswith(pre)`. -/
def startsWithL (s pre : String) : Bool :=
  isPrefixL pre.data s.data

/-! ## DomainClassifier (`src/domain_classifier.py`) -/

/-- First character class of the tokenizer regex `[a-zA-Z]`. -/
def isAsciiAlpha (c : Char) : Bool :=
  ('a' ≤ c && c ≤ 'z') || ('A' ≤ c && c ≤ 'Z')

/-- Continuation class of the tokenizer regex `[a-zA-Z+#/.&-]`. -/
def isKwChar (c : Char) : Bool :=
  isAsciiAlpha c || c = '+' || c = '#' || c = '/' || c = '.' || c = '&' || c = '-'

/-- `re.findall` for the tokenizer pattern `[a-zA-Z][a-zA-Z+#/.&-]+`:
leftmost, non-overlapping, greedy matches.  The scan consumes at least one
character per step, so a fuel of the input length is always sufficient;
recursion is structural on the fuel. -/
def tokensGo : Nat → List Char → List String
  | _, [] => []
  | 0, _ :: _ => []
  | fuel + 1, c :: rest =>
    if isAsciiAlpha c then
      let run := rest.takeWhile isKwChar
      if run.isEmpty then tokensGo fuel rest
      else String.mk (c :: run) :: tokensGo fuel (rest.drop run.length)
    else tokensGo fuel rest

/-- The token list of a (normalized) text: `self.tokenizer.findall(text_norm)`. -/
def pyTokens (s : String) : List String :=
  tokensGo s.data.length s.data

/-- The per-domain keyword dictionaries `self.domain_keywords`, in
declaration order. -/
def domainKeywords : List (String × List String) :=
  [ ("technology",
      ["python", "java", "c++", "javascript", "django", "flask", "spring", "aws", "gcp", "azure",
       "microservices", "api", "mulesoft", "sql", "nosql", "devops", "kubernetes", "docker", "cloud",
       "backend", "frontend", "full stack", "sdet", "data engineer", "software", "programming",
       "development", "coding", "technical", "system", "database", "server", "web development",
       "mobile development", "agile", "scrum", "git", "ci/cd", "automation", "testing", "qa"]),
    ("data_science",
      ["machine learning", "deep learning", "pytorch", "tensorflow", "scikit-learn", "xgboost",
       "random forest", "regression", "nlp", "computer vision", "data science", "analytics", "feature",
       "model", "predictive", "segmentation", "forecasting", "statistics", "statistical analysis",
       "data mining", "big data", "hadoop", "spark", "tableau", "power bi", "visualization",
       "business intelligence", "kpi", "metrics", "dashboard", "reporting", "insights"]),
    ("finance",
      ["finance", "financial", "credit", "investment", "valuation", "cash flow", "equity", "debt",
       "balance sheet", "p&l", "risk", "derivatives", "insurance", "actuarial", "pricing",
       "banking", "capital markets", "trading", "portfolio", "hedge fund", "private equity",
       "m&a", "mergers", "acquisitions", "ipo", "bonds", "securities", "compliance", "audit",
       "accounting", "gaap", "ifrs", "tax", "budgeting", "forecasting", "fp&a", "treasury"]),
    ("marketing",
      ["marketing", "seo", "sem", "campaign", "brand", "content", "social media", "google ads",
       "paid", "roi", "crm", "email marketing", "market research", "digital marketing",
       "advertising", "promotion", "branding", "customer acquisition", "lead generation",
       "conversion", "engagement", "reach", "impressions", "ctr", "cpc", "cpm", "attribution",
       "funnel", "segmentation", "targeting", "personalization", "automation", "growth hacking"]),
    ("operations",
      ["operations", "supply chain", "logistics", "inventory", "procurement", "lean", "six sigma",
       "process", "automation", "kaizen", "quality", "manufacturing", "production", "efficiency",
       "optimization", "workflow", "sop", "continuous improvement", "vendor management",
       "cost reduction", "capacity planning", "demand planning", "distribution", "warehousing",
       "fulfillment", "customer service", "service delivery", "sla", "performance metrics"]),
    ("consulting",
      ["consulting", "stakeholder", "strategy", "business case", "transformation", "roadmap",
       "workshop", "client engagement", "advisory", "strategic planning", "change management",
       "process improvement", "organizational design", "business analysis", "requirements",
       "solution design", "implementation", "project management", "delivery", "methodology",
       "best practices", "benchmarking", "assessment", "recommendations", "presentations"]),
    ("product",
      ["product", "roadmap", "backlog", "user stories", "pm", "prd", "market fit", "go-to-market",
       "feature prioritization", "a/b", "analytics", "product management", "product development",
       "user experience", "ux", "ui", "design", "prototyping", "wireframes", "user research",
       "customer feedback", "product strategy", "launch", "iteration", "mvp", "agile", "scrum"]),
    ("hr",
      ["recruitment", "talent", "hr", "hiring", "onboarding", "performance", "l&d", "compensation",
       "benefits", "human resources", "talent acquisition", "recruiting", "sourcing", "interviewing",
       "employee relations", "performance management", "training", "development", "succession planning",
       "workforce planning", "diversity", "inclusion", "culture", "engagement", "retention",
       "payroll", "hris", "policies", "compliance", "labor relations"]),
    ("sales",
      ["sales", "selling", "revenue", "quota", "target", "pipeline", "lead", "prospect", "customer",
       "client", "account", "relationship", "negotiation", "closing", "deal", "contract",
       "b2b", "b2c", "enterprise", "smb", "channel", "partner", "distributor", "reseller",
       "territory", "hunter", "farmer", "cold calling", "warm leads", "referrals", "networking",
       "presentation", "demo", "proposal", "rfp", "win rate", "conversion", "upsell", "cross-sell"]) ]

/-- `self.role_keywords`: job-title substrings mapped to a domain, in
declaration order. -/
def roleKeywordMap : List (String × String) :=
  [ ("business analyst", "consulting"),
    ("data analyst", "data_science"),
    ("financial analyst", "finance"),
    ("marketing analyst", "marketing"),
    ("sales representative", "sales"),
    ("product manager", "product"),
    ("software engineer", "technology"),
    ("data scientist", "data_science"),
    ("operations manager", "operations"),
    ("hr generalist", "hr"),
    ("recruiter", "hr"),
    ("consultant", "consulting"),
    ("developer", "technology"),
    ("engineer", "technology") ]

/-- `_check_role_keywords`: the first role whose name occurs as a substring
of the normalized text determines a direct domain. -/
def checkRole (textNorm : String) : Option String :=
  (roleKeywordMap.find? (fun p => strContains textNorm p.1)).map (·.2)

/-- Whether one keyword matches: a multi-word keyword by substring search on
the normalized text, a single-word keyword by membership in the token set. -/
def kwHit (textNorm : String) (tokens : List String) (kw : String) : Bool :=
  let kwl := toLowerStr kw
  if kwl.data.contains ' ' then strContains textNorm kwl else tokens.contains kwl

/-- The weight a matching keyword contributes (2 for phrases, 1 for tokens). -/
def kwWeight (kw : String) : Nat :=
  if (toLowerStr kw).data.contains ' ' then 2 else 1

/-- `count_matches`: total score and matched-keyword list for one domain. -/
def countMatches (textNorm : String) (tokens : List String) (kws : List String) :
    Nat × List String :=
  kws.foldl
    (fun acc kw => if kwHit textNorm tokens kw then (acc.1 + kwWeight kw, acc.2 ++ [kw]) else acc)
    (0, [])

/-- `max_possible`: upper-bound estimate `max(len(kws) * 2)` over all domains. -/
def maxPossible : Nat :=
  domainKeywords.foldl (fun m p => max m (p.2.length * 2)) 0

/-- Python `max(iterable, key=...)` over an association list: the first
pair attaining the maximal second component. -/
def pyMaxFst (l : List (String × Nat)) : String × Nat :=
  l.foldl (fun b p => if b.2 < p.2 then p else b) (l.headD ("", 0))

/-- Matched-keyword list of a given domain from the scored association list. -/
def matchedOf (scored : List (String × Nat × List String)) (d : String) : List String :=
  ((scored.find? (fun p => p.1 == d)).map (fun p => p.2.2)).getD []

/-- `domain_matches` together with the scores: every domain paired with
the result of `count_matches` on its keyword list. -/
def scoredOf (text : String) : List (String × Nat × List String) :=
  domainKeywords.map
    (fun p => (p.1, countMatches (toLowerStr text) (pyTokens (toLowerStr text)) p.2))

/-- `domain_scores`: every domain paired with its base score. -/
def scoresOf (text : String) : List (String × Nat) :=
  (scoredOf text).map (fun p => (p.1, p.2.1))

/-- The winner-selection part of `classify` on non-blank text: base scoring
over all domains, Python `max`, then the direct-role `+5` boost.  Returns
`((best_domain, best_score, matched_keywords), direct_domain)`. -/
def classifyParts (text : String) : (String × Nat × List String) × Option String :=
  let best0 := pyMaxFst (scoresOf text)
  let matched0 := matchedOf (scoredOf text) best0.1
  match checkRole (toLowerStr text) with
  | none => ((best0.1, best0.2, matched0), none)
  | some d =>
    match (scoresOf text).find? (fun p => p.1 == d) with
    | none => ((best0.1, best0.2, matched0), some d)
    | some p =>
      if best0.2 < p.2 + 5 then
        ((d, p.2 + 5, matchedOf (scoredOf text) d ++ ["role_match"]), some d)
      else ((best0.1, best0.2, matched0), some d)

/-- `base_confidence = min(1.0, best_score / (0.2 * max_possible))`. -/
def confBase (s : Nat) : ℚ :=
  min 1 ((s : ℚ) / (1/5 * (maxPossible : ℚ)))

/-- The `+0.3` bonus, clamped, applied when the winner came from a direct
role match. -/
def confRole (s : Nat) (roleBoost : Bool) : ℚ :=
  if roleBoost then min 1 (confBase s + 3/10) else confBase s

/-- The confidence of `classify` for a nonzero best score: the base value,
the role bonus, then a `+0.2` bonus (clamped) when `best_score >= 5`. -/
def confOf (s : Nat) (roleBoost : Bool) : ℚ :=
  if 5 ≤ s then min 1 (confRole s roleBoost + 1/5) else confRole s roleBoost

/-- `DomainClassifier.classify`, returning `(domain, confidence, matched_keywords)`. -/
def classify (text : String) : String × ℚ × List String :=
  if pyStripWs text = "" then ("general", 0, [])
  else
    let parts := classifyParts text
    let bs := parts.1.2.1
    if bs = 0 then ("general", 1/5, [])
    else (parts.1.1, confOf bs (parts.2 == some parts.1.1), parts.1.2.2)

/-- The winning (post-boost) score of `classify` on a text. -/
def bestScoreOf (text : String) : Nat :=
  (classifyParts text).1.2.1

/-- Whether the winner of `classify` came from a direct role-keyword match
(the condition of the `+0.3` confidence bonus). -/
def roleBoostOf (text : String) : Bool :=
  (classifyParts text).2 == some (classifyParts text).1.1

/-- Claim-side predicate: no dictionary keyword of any domain matches the
text (no phrase as a substring, no single token in the token set). -/
def noKeywordHit (text : String) : Bool :=
  domainKeywords.all (fun p =>
    p.2.all (fun kw => !(kwHit (toLowerStr text) (pyTokens (toLowerStr text)) kw)))

/-- Claim-side total keyword score of a text: the sum of all domains' scores. -/
def totalScore (text : String) : Nat :=
  ((scoresOf text).map (·.2)).sum

/-! ## MappingService._find_best_role (`src/services/mapping_service.py`) -/

/-- Is `c` a `\w` character (`[a-zA-Z0-9_]`)? -/
def isWordChar (c : Char) : Bool :=
  isAsciiAlpha c || ('0' ≤ c && c ≤ '9') || c = '_'

/-- `re.findall(r'\w+', s)`: maximal runs of word characters (structural
on a fuel that the input length always suffices for). -/
def wordTokensGo : Nat → List Char → List String
  | _, [] => []
  | 0, _ :: _ => []
  | fuel + 1, c :: rest =>
    if isWordChar c then
      let run := rest.takeWhile isWordChar
      String.mk (c :: run) :: wordTokensGo fuel (rest.drop run.length)
    else wordTokensGo fuel rest

def wordTokens (l : List Char) : List String :=
  wordTokensGo l.length l

/-- Keywords derived from a role's own name, with the documented
"analytics" stemming special case. -/
def roleDerivedKeywords (role : String) : List String :=
  let kws := wordTokens (toLowerStr role).data
  if kws.contains "analytics" then kws ++ ["analysis", "analyst"] else kws

/-- How many entries of the role's derived keyword list occur as substrings
of the lower-cased text (one iteration of the inner scoring loop). -/
def roleHits (textLower : String) (role : String) : Nat :=
  (roleDerivedKeywords role).countP (fun kw => isInfixL kw.data textLower.data)

/-- First-occurrence key collection, generalized over already-seen keys. -/
def dedupStrAux (seen : List String) : List String → List String
  | [] => []
  | x :: xs => if x ∈ seen then dedupStrAux seen xs else x :: dedupStrAux (x :: seen) xs

/-- First-occurrence key list of a Python dict built from `roles`. -/
def dedupStr (roles : List String) : List String :=
  dedupStrAux [] roles

/-- `MappingService._find_best_role`.  The score dict is keyed by the
distinct roles; iterating the (possibly repeating) candidate list makes a
role occurring `k` times in the list score `k` times its keyword hits. -/
def findBestRole (text : String) (roles : List String) : String :=
  let tl := toLowerStr text
  let keys := dedupStr roles
  let scores := keys.map (fun k => (k, roles.count k * roleHits tl k))
  if scores.any (fun p => p.2 != 0) then (pyMaxFst scores).1
  else roles.headD ""

/-- Claim-side selection rule: the first role of the candidate list, in
original order, attaining the maximum score under `f`. -/
def firstArgmax (f : String → Nat) : List String → String
  | [] => ""
  | r :: rs => rs.foldl (fun b x => if f b < f x then x else b) r

/-! ## TextProfileParser (`src/text_profile_parser.py`) -/

/-- Length of a separator match of `\r?\n+` starting at the head, if any. -/
def matchNl : List Char → Option Nat
  | '\r' :: '\n' :: r => some (2 + (r.takeWhile (fun c => c = '\n')).length)
  | '\n' :: r => some (1 + (r.takeWhile (fun c => c = '\n')).length)
  | _ => none

theorem matchNl_pos {l : List Char} {n : Nat} (h : matchNl l = some n) : 0 < n := by
  unfold matchNl at h
  split at h <;> simp_all <;> omega

/-- `re.split` against a separator matcher: scan left to right, split at
the leftmost match, continue after it.  `acc` holds the current piece
reversed.  Since every separator match of the matchers used below has
positive length, the scan consumes at least one character per step and a
fuel of the input length is always sufficient. -/
def splitGo (m : List Char → Option Nat) : Nat → List Char → List Char → List String
  | _, [], acc => [String.mk acc.reverse]
  | 0, _ :: _, acc => [String.mk acc.reverse]
  | fuel + 1, c :: t, acc =>
    match m (c :: t) with
    | some len => String.mk acc.reverse :: splitGo m fuel ((c :: t).drop len) []
    | none => splitGo m fuel t (c :: acc)

/-- `self.line_splitter.split(text)` for `\r?\n+`. -/
def splitLines (s : String) : List String :=
  splitGo matchNl s.data.length s.data []

/-- Whitespace run length at the head of a character list. -/
def wsRun (l : List Char) : Nat :=
  (l.takeWhile isPySpace).length

/-- The last alternative `\s*\n\s*`, reachable only when the leading
whitespace run has length at most 1: it matches exactly when that run is a
single `'\n'`. -/
def matchSepNl (l : List Char) : Option Nat :=
  if wsRun l = 1 ∧ l.head? = some '\n' then some 1 else none

/-- Length of a separator match of
`\s{2,}|\s*\-\s+|\s*\*\s+|\s*\n\s*` starting at the head, if any
(alternatives tried in order, greedy, with the backtracking the pattern
admits). -/
def matchSep (l : List Char) : Option Nat :=
  if 2 ≤ wsRun l then some (wsRun l)
  else
    match l.drop (wsRun l) with
    | '-' :: r2 => if 1 ≤ wsRun r2 then some (wsRun l + 1 + wsRun r2) else matchSepNl l
    | '*' :: r2 => if 1 ≤ wsRun r2 then some (wsRun l + 1 + wsRun r2) else matchSepNl l
    | _ => matchSepNl l

theorem matchSepNl_pos {l : List Char} {n : Nat} (h : matchSepNl l = some n) : 0 < n := by
  unfold matchSepNl at h
  split at h <;> simp_all <;> omega

theorem matchSep_pos {l : List Char} {n : Nat} (h : matchSep l = some n) : 0 < n := by
  unfold matchSep at h
  split at h
  · simp_all; omega
  · split at h <;> first
      | exact matchSepNl_pos h
      | (split at h <;> first
          | exact matchSepNl_pos h
          | (simp_all; omega))

/-- `re.split(r"\s{2,}|\s*\-\s+|\s*\*\s+|\s*\n\s*", chunk)`. -/
def splitParts (chunk : String) : List String :=
  splitGo matchSep chunk.data.length chunk.data []

/-- The strip set of `p.strip(" .-")`. -/
def itemStripSet : List Char := [' ', '.', '-']

/-- The candidate items of `_split_items` before de-duplication:
`[p.strip(" .-") for p in parts if p and len(p.strip()) > 2]`. -/
def rawItems (chunk : String) : List String :=
  ((splitParts chunk).filter
      (fun p => p ≠ "" && decide (2 < (pyStripWs p).data.length))).map
    (fun p => stripChars p itemStripSet)

/-- Case-insensitive order-preserving de-duplication (the `seen` loop),
generalized over the already-seen lower-cased keys. -/
def dedupCIAux (seen : List String) : List String → List String
  | [] => []
  | x :: xs =>
    if toLowerStr x ∈ seen then dedupCIAux seen xs
    else x :: dedupCIAux (toLowerStr x :: seen) xs

/-- `TextProfileParser._split_items`. -/
def splitItems (chunk : String) : List String :=
  dedupCIAux [] (rawItems chunk)

/-- The five section labels of the parser. -/
inductive Sect where
  | education | achievements | projects | experience | certificates
deriving DecidableEq

/-- `self.section_headers`, in declaration order. -/
def sectionHeaders : List (Sect × List String) :=
  [ (.education, ["education"]),
    (.achievements, ["achievements", "achievement"]),
    (.projects, ["projects", "project"]),
    (.experience, ["work experience", "internships", "experience", "internship"]),
    (.certificates, ["certificate", "certificates", "certifications"]) ]

/-- `is_header`: strip markup from the lower-cased line and look for a
section alias it starts with. -/
def isHeaderOf (ln : String) : Option Sect :=
  let lower := stripChars (toLowerStr ln) ['*', ' ', ':', '-']
  (sectionHeaders.find? (fun p => p.2.any (fun a => startsWithL lower a))).map (·.1)

/-- The structured result of `parse`. -/
structure ParsedProfile where
  education : List String
  achievements : List String
  projects : List String
  experience : List String
  certificates : List String
  raw : String
deriving DecidableEq

/-- The item list of one section. -/
def sectList (p : ParsedProfile) : Sect → List String
  | .education => p.education
  | .achievements => p.achievements
  | .projects => p.projects
  | .experience => p.experience
  | .certificates => p.certificates

/-- Extend one section's item list. -/
def addItems (p : ParsedProfile) (s : Sect) (xs : List String) : ParsedProfile :=
  match s with
  | .education => { p with education := p.education ++ xs }
  | .achievements => { p with achievements := p.achievements ++ xs }
  | .projects => { p with projects := p.projects ++ xs }
  | .experience => { p with experience := p.experience ++ xs }
  | .certificates => { p with certificates := p.certificates ++ xs }

/-- Python `" ".join(buffer)`. -/
def joinSpace : List String → String
  | [] => ""
  | x :: xs => xs.foldl (fun a b => a ++ " " ++ b) x

/-- `flush()`: split the joined buffer into items and extend the current
section (when there is a current section and a non-empty buffer). -/
def flushAcc (cur : Option Sect) (buf : List String) (acc : ParsedProfile) : ParsedProfile :=
  match cur with
  | some s => if buf = [] then acc else addItems acc s (splitItems (pyStripWs (joinSpace buf)))
  | none => acc

/-- One step of the line loop of `parse`. -/
def parseStep (st : Option Sect × List String × ParsedProfile) (ln : String) :
    Option Sect × List String × ParsedProfile :=
  match isHeaderOf ln with
  | some s => (some s, [], flushAcc st.1 st.2.1 st.2.2)
  | none => (st.1, st.2.1 ++ [ln], st.2.2)

/-- `TextProfileParser.parse`; Python returns the bare `{}` for empty
input, modelled as `none`. -/
def parseProfile (text : String) : Option ParsedProfile :=
  if text = "" then none
  else
    let lines := ((splitLines text).map pyStripWs).filter (fun ln => ln ≠ "")
    let init : Option Sect × List String × ParsedProfile :=
      (none, [], ⟨[], [], [], [], [], pyStripWs text⟩)
    let st := lines.foldl parseStep init
    some (flushAcc st.1 st.2.1 st.2.2)

/-! ## VectorDatabase, in-memory fallback (`src/vector_db.py`)

Float arithmetic is modelled by real numbers; the dictionary scalar values
of metadata by `MetaVal`.  A raised `numpy` exception (e.g. a dot product
of mismatched shapes) is modelled by `Except.error`; the `try/except`
around `search_similar` maps the error case to `[]`. -/

inductive MetaVal where
  | s : String → MetaVal
  | n : Int → MetaVal
  | b : Bool → MetaVal
deriving DecidableEq

/-- Fixed list of metadata key/value pairs (a Python dict). -/
abbrev Metadata := List (String × MetaVal)

/-- A record of the fallback store `self._items`. -/
structure StoredItem where
  id : String
  embedding : List ℝ
  document : String
  metadata : Metadata

/-- Python `metadata.get(k)`. -/
def metaGet (md : Metadata) (k : String) : Option MetaVal :=
  (md.find? (fun p => p.1 == k)).map (·.2)

/-- `metadata.get(k, default)`. -/
def metaGetD (md : Metadata) (k : String) (d : MetaVal) : MetaVal :=
  (metaGet md k).getD d

/-- The `where` filter loop: every filter key must be present with an
equal value (an empty filter dict skips the check, which is the same as
passing vacuously). -/
def whereOk (w : Metadata) (md : Metadata) : Bool :=
  w.all (fun p => metaGet md p.1 == some p.2)

/-- Sum of squares of a vector. -/
def sumSq (v : List ℝ) : ℝ :=
  v.foldr (fun x a => x * x + a) 0

/-- `np.linalg.norm`. -/
noncomputable def vnorm (v : List ℝ) : ℝ :=
  Real.sqrt (sumSq v)

/-- The `1e-12` regularizer of the normalizing denominator. -/
noncomputable def vecEps : ℝ :=
  1 / 1000000000000

/-- `v / (np.linalg.norm(v) + 1e-12)`. -/
noncomputable def vecNormalize (v : List ℝ) : List ℝ :=
  v.map (fun x => x / (vnorm v + vecEps))

/-- 1-D dot product of equal-length vectors. -/
def dotProd (a b : List ℝ) : ℝ :=
  (a.zip b).foldr (fun p acc => p.1 * p.2 + acc) 0

/-- `np.dot` on 1-D arrays: raises on mismatched shapes. -/
def dotE (a b : List ℝ) : Except String ℝ :=
  if a.length = b.length then .ok (dotProd a b) else .error "shapes not aligned"

/-- The similarity value `float(np.dot(q_norm, emb_norm))` when defined. -/
noncomputable def simVal (q e : List ℝ) : ℝ :=
  dotProd (vecNormalize q) (vecNormalize e)

/-- The similarity computation including the shape check. -/
noncomputable def simE (q e : List ℝ) : Except String ℝ :=
  dotE (vecNormalize q) (vecNormalize e)

/-- The filter-and-score loop of the fallback branch of `search_similar`:
skip items failing the `where` filter, compute the similarity (which can
raise), keep items with `sim >= min_similarity`, in insertion order. -/
noncomputable def collectMatches (q : List ℝ) (minSim : ℝ) (w : Metadata) :
    List StoredItem → Except String (List (StoredItem × ℝ))
  | [] => .ok []
  | it :: rest =>
    if whereOk w it.metadata then
      match simE q it.embedding with
      | .error e => .error e
      | .ok s =>
        match collectMatches q minSim w rest with
        | .error e => .error e
        | .ok tl => .ok (if minSim ≤ s then (it, s) :: tl else tl)
    else collectMatches q minSim w rest

/-- Descending order on scored items, the stable-sort key
`key=lambda x: x[1], reverse=True`. -/
def simGE (a b : StoredItem × ℝ) : Prop :=
  b.2 ≤ a.2

noncomputable instance : DecidableRel simGE :=
  fun a b => Real.decidableLE b.2 a.2

instance : IsTotal (StoredItem × ℝ) simGE :=
  ⟨fun a b => le_total b.2 a.2⟩

instance : IsTrans (StoredItem × ℝ) simGE :=
  ⟨fun _ _ _ h1 h2 => le_trans h2 h1⟩

/-- A returned match dict. -/
structure MatchRec where
  id : String
  similarity : ℝ
  filename : MetaVal
  contentPreview : String
  metadata : Metadata

/-- Python `round(x, 4)` (ties modelled by rounding half up). -/
noncomputable def round4 (x : ℝ) : ℝ :=
  (round (x * 10000) : ℤ) / 10000

/-- Python `s[:n]`. -/
def strTake (s : String) (n : Nat) : String :=
  String.mk (s.data.take n)

/-- One output dict of `search_similar`. -/
noncomputable def mkRec (it : StoredItem) (s : ℝ) : MatchRec :=
  { id := it.id,
    similarity := round4 s,
    filename := metaGetD it.metadata "filename" (.s "Unknown"),
    contentPreview := strTake it.document 200 ++ "...",
    metadata := it.metadata }

/-- The body of the fallback branch of `search_similar` (before the
`except` handler): filter and score, stable-sort descending by similarity,
truncate to `top_k`, build output dicts with rounded similarity. -/
noncomputable def innerSearch (items : List StoredItem) (q : List ℝ) (topK : Nat)
    (minSim : ℝ) (w : Metadata) : Except String (List MatchRec) :=
  match collectMatches q minSim w items with
  | .error e => .error e
  | .ok rs => .ok (((List.insertionSort simGE rs).take topK).map (fun p => mkRec p.1 p.2))

/-- `VectorDatabase.search_similar` on the fallback store: any internal
error is caught and the empty list returned. -/
noncomputable def searchSimilar (items : List StoredItem) (q : List ℝ) (topK : Nat)
    (minSim : ℝ) (w : Metadata) : List MatchRec :=
  match innerSearch items q topK minSim w with
  | .ok r => r
  | .error _ => []

/-- The confidence formula is monotone and stays in the unit interval;
these pieces are shared by several claims below. -/
theorem confBase_nonneg (s : Nat) : 0 ≤ confBase s := by
  unfold confBase
  exact le_min (by norm_num) (div_nonneg (by positivity) (by positivity))

theorem confBase_le_one (s : Nat) : confBase s ≤ 1 :=
  min_le_left _ _

theorem confRole_nonneg (s : Nat) (r : Bool) : 0 ≤ confRole s r := by
  unfold confRole
  cases r with
  | false => simpa using confBase_nonneg s
  | true =>
    simp only [if_true]
    exact le_min (by norm_num) (by have := confBase_nonneg s; linarith)

theorem confRole_le_one (s : Nat) (r : Bool) : confRole s r ≤ 1 := by
  unfold confRole
  cases r with
  | false => simpa using confBase_le_one s
  | true => simp only [if_true]; exact min_le_left _ _

theorem confOf_nonneg (s : Nat) (r : Bool) : 0 ≤ confOf s r := by
  unfold confOf
  split
  · exact le_min (by norm_num) (by have := confRole_nonneg s r; linarith)
  · exact confRole_nonneg s r

theorem confOf_le_one (s : Nat) (r : Bool) : confOf s r ≤ 1 := by
  unfold confOf
  split
  · exact min_le_left _ _
  · exact confRole_le_one s r

theorem maxPossible_eq : maxPossible = 82 := by decide

theorem confBase_mono {s s' : Nat} (h : s ≤ s') : confBase s ≤ confBase s' := by
  unfold confBase
  refine min_le_min le_rfl ?_
  have hc : (0 : ℚ) < 1/5 * (maxPossible : ℚ) := by rw [maxPossible_eq]; norm_num
  exact (div_le_div_right hc).mpr (by exact_mod_cast h)

theorem confRole_mono {s s' : Nat} (h : s ≤ s') (r : Bool) :
    confRole s r ≤ confRole s' r := by
  unfold confRole
  cases r with
  | false => simpa using confBase_mono h
  | true =>
    simp only [if_true]
    exact min_le_min le_rfl (by have := confBase_mono h; linarith)

theorem confOf_mono {s s' : Nat} (h : s ≤ s') (r : Bool) : confOf s r ≤ confOf s' r := by
  unfold confOf
  by_cases h5 : 5 ≤ s
  · rw [if_pos h5, if_pos (le_trans h5 h)]
    exact min_le_min le_rfl (by have := confRole_mono h r; linarith)
  · rw [if_neg h5]
    by_cases h5' : 5 ≤ s'
    · rw [if_pos h5']
      refine le_min (confRole_le_one s r) ?_
      have := confRole_mono h r
      linarith
    · rw [if_neg h5']
      exact confRole_mono h r

/-- Qualification predicate of the claim: the metadata passes the filter
and the similarity reaches the floor. -/
def qualifies (q : List ℝ) (minSim : ℝ) (w : Metadata) (it : StoredItem) : Prop :=
  whereOk w it.metadata = true ∧ minSim ≤ simVal q it.embedding

noncomputable instance (q : List ℝ) (minSim : ℝ) (w : Metadata) :
    DecidablePred (qualifies q minSim w) :=
  fun it => @instDecidableAnd _ _ _ (Real.decidableLE minSim (simVal q it.embedding))

/-- `metadata.update({...})`: set a key, overriding in place or appending. -/
def mdSet (md : Metadata) (k : String) (v : MetaVal) : Metadata :=
  if md.any (fun p => p.1 == k) then md.map (fun p => if p.1 == k then (k, v) else p)
  else md ++ [(k, v)]

/-- `VectorDatabase.store_resume` on the fallback store; the generated
UUID is passed in as `rid`.  Returns the new item list and the id. -/
def storeResume (items : List StoredItem) (rid : String) (filename : String)
    (embedding : List ℝ) (textContent : String) (metadata : Metadata) :
    List StoredItem × String :=
  let md := mdSet (mdSet (mdSet metadata "filename" (.s filename))
    "content_length" (.n textContent.data.length)) "type" (.s "resume")
  (items ++ [{ id := rid, embedding := embedding,
               document := strTake textContent 1000, metadata := md }], rid)

/-! ## Claim C5 -/

/-- C5: for every input text, the confidence returned by
`DomainClassifier.classify` lies in `[0, 1]`; the flat bonuses for a
direct role-keyword match and for a strong raw score (`>= 5`) are clamped
so the total never exceeds `1`. -/
theorem classify_confidence_unit_interval (t : String) :
    0 ≤ (classify t).2.1 ∧ (classify t).2.1 ≤ 1 := by
  unfold classify
  split
  · norm_num
  · simp only []
    split
    · norm_num
    · exact ⟨confOf_nonneg _ _, confOf_le_one _ _⟩

/-! ## Claim C8 -/

/-- C8: for every empty or whitespace-only input text, `classify` returns
exactly `("general", 0.0, [])`, a confidence distinguishable from the
`≈0.2` zero-match sentinel. -/
theorem classify_blank_input (t : String) (h : pyStripWs t = "") :
    classify t = ("general", 0, []) ∧ (classify t).2.1 ≠ 1/5 := by
  have hc : classify t = ("general", 0, []) := by simp [classify, h]
  refine ⟨hc, ?_⟩
  rw [hc]
  norm_num

theorem classify_blank_input_witness :
    classify "  " = ("general", 0, []) ∧ (classify "  ").2.1 ≠ 1/5 :=
  classify_blank_input "  " (by decide)

/-! ## Claim C9 -/

theorem dotProd_left_zero (a b : List ℝ) (h : ∀ x ∈ a, x = 0) : dotProd a b = 0 := by
  induction a generalizing b with
  | nil => rfl
  | cons x as ih =>
    cases b with
    | nil => rfl
    | cons y bs =>
      have hx : x = 0 := h x (by simp)
      have hrest := ih bs (fun z hz => h z (by simp [hz]))
      simp only [dotProd, List.zip_cons_cons, List.foldr_cons] at *
      rw [hx, hrest]
      ring

theorem dotProd_right_zero (a b : List ℝ) (h : ∀ x ∈ b, x = 0) : dotProd a b = 0 := by
  induction a generalizing b with
  | nil => rfl
  | cons x as ih =>
    cases b with
    | nil => rfl
    | cons y bs =>
      have hy : y = 0 := h y (by simp)
      have hrest := ih bs (fun z hz => h z (by simp [hz]))
      simp only [dotProd, List.zip_cons_cons, List.foldr_cons] at *
      rw [hy, hrest]
      ring

/-- C9: a similarity query against the empty fallback store returns the
empty list rather than raising; storing a zero vector succeeds; and the
similarity involving an all-zero vector is defined and evaluates to `0`,
because the normalizing denominator adds the `1e-12` epsilon. -/
theorem vector_db_empty_and_zero_vector_safe :
    (∀ (q : List ℝ) (topK : Nat) (minSim : ℝ) (w : Metadata),
        searchSimilar [] q topK minSim w = []) ∧
    (∀ (items : List StoredItem) (rid fn txt : String) (md : Metadata) (n : Nat),
        ((storeResume items rid fn (List.replicate n 0) txt md).1).length
          = items.length + 1) ∧
    (∀ q e : List ℝ, q.length = e.length → (∀ x ∈ q, x = 0) → simE q e = .ok 0) ∧
    (∀ q e : List ℝ, q.length = e.length → (∀ x ∈ e, x = 0) → simE q e = .ok 0) := by
  refine ⟨?_, fun items rid fn txt md n => by simp [storeResume], ?_, ?_⟩
  · intro q topK minSim w
    unfold searchSimilar innerSearch collectMatches
    simp [List.insertionSort]
  · intro q e hlen hzero
    unfold simE dotE
    rw [if_pos (by simp [vecNormalize, hlen])]
    congr 1
    apply dotProd_left_zero
    intro x hx
    simp only [vecNormalize, List.mem_map] at hx
    obtain ⟨y, hy, rfl⟩ := hx
    rw [hzero y hy, zero_div]
  · intro q e hlen hzero
    unfold simE dotE
    rw [if_pos (by simp [vecNormalize, hlen])]
    congr 1
    apply dotProd_right_zero
    intro x hx
    simp only [vecNormalize, List.mem_map] at hx
    obtain ⟨y, hy, rfl⟩ := hx
    rw [hzero y hy, zero_div]

theorem vector_db_empty_and_zero_vector_safe_witness :
    searchSimilar [] [(0 : ℝ)] 1 0 [] = [] ∧ simE [(0 : ℝ)] [0] = .ok 0 :=
  ⟨vector_db_empty_and_zero_vector_safe.1 [0] 1 0 [],
   vector_db_empty_and_zero_vector_safe.2.2.1 [0] [0] rfl (by simp)⟩

/-! ## Claim C10 -/

/-- C10: `search_similar` never propagates an exception: whenever the body
of the fallback search raises internally (for example on a query embedding
whose dimension does not match a stored embedding), the error is caught
and the empty list is returned instead. -/
theorem searchSimilar_catches_errors (items : List StoredItem) (q : List ℝ)
    (topK : Nat) (minSim : ℝ) (w : Metadata) (e : String)
    (h : innerSearch items q topK minSim w = .error e) :
    searchSimilar items q topK minSim w = [] := by
  unfold searchSimilar
  rw [h]

/-- A stored item whose embedding dimension (2) differs from the witness
query's dimension (1). -/
def mismatchItem : StoredItem :=
  ⟨"a", [0, 0], "doc", []⟩

theorem searchSimilar_catches_errors_witness :
    searchSimilar [mismatchItem] [0] 10 0 [] = [] :=
  searchSimilar_catches_errors [mismatchItem] [0] 10 0 [] "shapes not aligned" rfl

/-! ## Claim C3 -/

theorem dedupStrAux_of_nodup {l : List String} (h : l.Nodup) :
    ∀ seen : List String, (∀ x ∈ l, x ∉ seen) → dedupStrAux seen l = l := by
  induction l with
  | nil => intro seen _; rfl
  | cons x xs ih =>
    intro seen hs
    rw [List.nodup_cons] at h
    unfold dedupStrAux
    rw [if_neg (hs x (by simp))]
    congr 1
    refine ih h.2 (x :: seen) (fun y hy => ?_)
    simp only [List.mem_cons]
    push_neg
    exact ⟨fun hyx => h.1 (hyx ▸ hy), hs y (by simp [hy])⟩

theorem dedupStr_of_nodup {l : List String} (h : l.Nodup) : dedupStr l = l :=
  dedupStrAux_of_nodup h [] (by simp)

/-- Folding the Python-`max` step over a list of `(key, value)` pairs built
from a score function agrees with folding the first-argmax step over the
keys. -/
theorem foldl_max_map (f : String → Nat) (rs : List String) (b : String) :
    (rs.map (fun k => (k, f k))).foldl
        (fun (acc : String × Nat) p => if acc.2 < p.2 then p else acc) (b, f b)
      = (rs.foldl (fun acc x => if f acc < f x then x else acc) b,
         f (rs.foldl (fun acc x => if f acc < f x then x else acc) b)) := by
  induction rs generalizing b with
  | nil => rfl
  | cons x xs ih =>
    simp only [List.map_cons, List.foldl_cons]
    by_cases h : f b < f x
    · rw [if_pos h, if_pos h, ih]
    · rw [if_neg h, if_neg h, ih]

theorem foldl_argmax_const (f : String → Nat) (rs : List String) (b : String)
    (hb : f b = 0) (hrs : ∀ x ∈ rs, f x = 0) :
    rs.foldl (fun acc x => if f acc < f x then x else acc) b = b := by
  induction rs generalizing b with
  | nil => rfl
  | cons x xs ih =>
    simp only [List.foldl_cons]
    rw [hb, hrs x (by simp), if_neg (by omega)]
    exact ih b hb (fun y hy => hrs y (by simp [hy]))

/-- C3 (amended): for every candidate role list without duplicates,
`_find_best_role` returns the first role, in original candidate-list
order, attaining the maximum keyword-hit score (which is the first role
outright when every role scores zero) — it never errors.  (With duplicate
role names in the list the score-dict accumulation double-counts, see the
counterexample.) -/
theorem findBestRole_firstArgmax_amended (text : String) (roles : List String)
    (hne : roles ≠ []) (hnd : roles.Nodup) :
    findBestRole text roles = firstArgmax (fun r => roleHits (toLowerStr text) r) roles := by
  obtain ⟨r, rs, rfl⟩ := List.exists_cons_of_ne_nil hne
  set f : String → Nat := fun k => roleHits (toLowerStr text) k with hf
  unfold findBestRole
  rw [dedupStr_of_nodup hnd]
  have hscores :
      (r :: rs).map (fun k => (k, (r :: rs).count k * roleHits (toLowerStr text) k))
        = (r :: rs).map (fun k => (k, f k)) := by
    refine List.map_congr_left (fun k hk => ?_)
    rw [List.count_eq_one_of_mem hnd hk, one_mul]
  simp only []
  rw [hscores]
  by_cases hany : ((r :: rs).map (fun k => (k, f k))).any (fun p => p.2 != 0)
  · rw [if_pos hany]
    unfold pyMaxFst firstArgmax
    simp only [List.map_cons, List.headD_cons, List.foldl_cons, lt_self_iff_false, if_false]
    rw [foldl_max_map]
  · rw [if_neg hany]
    have hall : ∀ k ∈ r :: rs, f k = 0 := by
      intro k hk
      by_contra hk0
      exact hany (List.any_eq_true.mpr ⟨(k, f k), List.mem_map_of_mem _ hk, by simpa using hk0⟩)
    simp only [firstArgmax, List.headD_cons]
    exact (foldl_argmax_const f rs r (hall r (by simp)) (fun x hx => hall x (by simp [hx]))).symm

theorem findBestRole_firstArgmax_witness :
    findBestRole "loves dashboards and data analysis"
        ["Business Analytics", "Data Visualisation"]
      = firstArgmax
          (fun r => roleHits (toLowerStr "loves dashboards and data analysis") r)
          ["Business Analytics", "Data Visualisation"] :=
  findBestRole_firstArgmax_amended _ _ (by decide) (by decide)

/-- C3 counterexample: with a duplicated role name in the candidate list,
the score dict counts the duplicate's keyword hits twice, so the returned
role is not the first role attaining the maximum keyword-count score. -/
theorem findBestRole_duplicate_counterexample :
    findBestRole "python java sql" ["python", "python", "java sql"] = "python" ∧
    firstArgmax (fun r => roleHits (toLowerStr "python java sql") r)
        ["python", "python", "java sql"] = "java sql" ∧
    ("python" : String) ≠ "java sql" :=
  ⟨by decide, by decide, by decide⟩

/-! ## Claims C6 and C7 -/

theorem dedupCIAux_sublist (seen l : List String) : (dedupCIAux seen l).Sublist l := by
  induction l generalizing seen with
  | nil => simp [dedupCIAux]
  | cons x xs ih =>
    unfold dedupCIAux
    split
    · exact (ih seen).cons x
    · exact (ih _).cons₂ x

theorem dedupCIAux_fresh (seen l : List String) :
    ∀ x ∈ dedupCIAux seen l, toLowerStr x ∉ seen := by
  induction l generalizing seen with
  | nil => simp [dedupCIAux]
  | cons x xs ih =>
    unfold dedupCIAux
    split
    · exact ih seen
    · intro y hy
      rcases List.mem_cons.mp hy with rfl | hy'
      · assumption
      · intro hc
        exact ih (toLowerStr x :: seen) y hy' (List.mem_cons_of_mem _ hc)

theorem dedupCIAux_pairwise (seen l : List String) :
    (dedupCIAux seen l).Pairwise (fun a b => toLowerStr a ≠ toLowerStr b) := by
  induction l generalizing seen with
  | nil => simp [dedupCIAux]
  | cons x xs ih =>
    unfold dedupCIAux
    split
    · exact ih seen
    · refine List.Pairwise.cons (fun y hy => ?_) (ih _)
      have := dedupCIAux_fresh (toLowerStr x :: seen) xs y hy
      simp only [List.mem_cons, not_or] at this
      exact fun hc => this.1 hc.symm

/-- C6 (amended): every item returned by `_split_items` originates from a
split part that is non-empty and has *whitespace-trimmed* length at least
3 — the length filter runs before the trailing-`" .-"` trim, so the final
item itself may be shorter than 3 characters. -/
theorem splitItems_origin_amended (chunk : String) (it : String)
    (h : it ∈ splitItems chunk) :
    ∃ p ∈ splitParts chunk, p ≠ "" ∧ 2 < (pyStripWs p).data.length ∧
      it = stripChars p itemStripSet := by
  have hmem : it ∈ rawItems chunk := (dedupCIAux_sublist [] _).subset h
  unfold rawItems at hmem
  rcases List.mem_map.mp hmem with ⟨p, hp, rfl⟩
  rcases List.mem_filter.mp hp with ⟨hp1, hp2⟩
  have hp2' : p ≠ "" ∧ 2 < (pyStripWs p).data.length := by simpa using hp2
  exact ⟨p, hp1, hp2'.1, hp2'.2, rfl⟩

theorem splitItems_origin_witness :
    ∃ p ∈ splitParts "abc", p ≠ "" ∧ 2 < (pyStripWs p).data.length ∧
      ("abc" : String) = stripChars p itemStripSet :=
  splitItems_origin_amended "abc" "abc" (by decide)

/-- C6 counterexample: flushing the chunk `"a.."` under an `education`
header yields the item `"a"`, whose length after trimming is 1 < 3: the
parser's length filter checks the whitespace-trimmed candidate before the
period/hyphen trim, so returned items can be shorter than 3 characters. -/
theorem splitItems_short_item_counterexample :
    (parseProfile "education\na..").map ParsedProfile.education = some ["a"] ∧
    ("a" : String).data.length < 3 :=
  ⟨by decide, by decide⟩

theorem sectList_addItems (p : ParsedProfile) (s s' : Sect) (xs : List String) :
    sectList (addItems p s xs) s'
      = if s' = s then sectList p s' ++ xs else sectList p s' := by
  cases s <;> cases s' <;> simp [addItems, sectList]

theorem flushAcc_chunks (cur : Option Sect) (buf : List String) (acc : ParsedProfile)
    (hinv : ∀ s, ∃ cs : List String, sectList acc s = (cs.map splitItems).flatten) :
    ∀ s, ∃ cs : List String,
      sectList (flushAcc cur buf acc) s = (cs.map splitItems).flatten := by
  intro s
  cases cur with
  | none => exact hinv s
  | some s0 =>
    unfold flushAcc
    dsimp only
    by_cases hbuf : buf = []
    · rw [if_pos hbuf]
      exact hinv s
    · rw [if_neg hbuf, sectList_addItems]
      obtain ⟨cs, hcs⟩ := hinv s
      split
      · exact ⟨cs ++ [pyStripWs (joinSpace buf)], by simp [hcs]⟩
      · exact ⟨cs, hcs⟩

theorem parse_fold_chunks (lines : List String) :
    ∀ st : Option Sect × List String × ParsedProfile,
      (∀ s, ∃ cs : List String, sectList st.2.2 s = (cs.map splitItems).flatten) →
      ∀ s, ∃ cs : List String,
        sectList (lines.foldl parseStep st).2.2 s = (cs.map splitItems).flatten := by
  induction lines with
  | nil => exact fun st hinv s => hinv s
  | cons ln ls ih =>
    intro st hinv s
    rw [List.foldl_cons]
    refine ih _ ?_ s
    unfold parseStep
    split
    · exact fun s' => flushAcc_chunks _ _ _ hinv s'
    · exact hinv

/-- C7 (amended): the items of every single flushed chunk are
de-duplicated case-insensitively with first-seen order (`_split_items`
output is case-insensitively duplicate-free and a sublist of the pre-dedup
candidates), and every section list of a parse result is a concatenation
of such per-chunk lists; the de-duplication is per chunk only, so items
repeated under multiple occurrences of the same header can recur in a
section list (see the counterexample). -/
theorem splitItems_dedup_per_chunk_amended :
    (∀ chunk : String,
        (splitItems chunk).Pairwise (fun a b => toLowerStr a ≠ toLowerStr b) ∧
        (splitItems chunk).Sublist (rawItems chunk)) ∧
    (∀ (t : String) (p : ParsedProfile), parseProfile t = some p → ∀ s : Sect,
        ∃ cs : List String, sectList p s = (cs.map splitItems).flatten) := by
  constructor
  · exact fun chunk => ⟨dedupCIAux_pairwise [] _, dedupCIAux_sublist [] _⟩
  · intro t p hp s
    unfold parseProfile at hp
    split at hp
    · exact absurd hp (by simp)
    · simp only [Option.some.injEq] at hp
      subst hp
      refine flushAcc_chunks _ _ _ ?_ s
      refine parse_fold_chunks _ _ ?_
      intro s'
      exact ⟨[], by cases s' <;> rfl⟩

theorem splitItems_dedup_per_chunk_witness :
    (splitItems "Python  python  SQL").Pairwise
        (fun a b => toLowerStr a ≠ toLowerStr b) ∧
    (∃ cs : List String,
        sectList ⟨["abc"], [], [], [], [], "education\nabc"⟩ Sect.education
          = (cs.map splitItems).flatten) :=
  ⟨(splitItems_dedup_per_chunk_amended.1 "Python  python  SQL").1,
   splitItems_dedup_per_chunk_amended.2 "education\nabc"
     ⟨["abc"], [], [], [], [], "education\nabc"⟩ (by decide) Sect.education⟩

/-- C7 counterexample: two occurrences of the `education` header make two
chunks flush into the same section, and the case-insensitive
de-duplication does not apply across chunks: the returned education list
contains both `"BSc"` and `"bsc"`. -/
theorem parse_cross_chunk_duplicate_counterexample :
    (parseProfile "education\nBSc\neducation\nbsc").map ParsedProfile.education
      = some ["BSc", "bsc"] ∧
    toLowerStr "BSc" = toLowerStr "bsc" ∧ ("BSc" : String) ≠ "bsc" :=
  ⟨by decide, by decide, by decide⟩

/-! ## Claim C1 -/

theorem countMatches_foldl_const (tn : String) (toks : List String) (kws : List String)
    (h : ∀ kw ∈ kws, kwHit tn toks kw = false) (acc : Nat × List String) :
    kws.foldl
        (fun acc kw =>
          if kwHit tn toks kw then (acc.1 + kwWeight kw, acc.2 ++ [kw]) else acc) acc
      = acc := by
  induction kws generalizing acc with
  | nil => rfl
  | cons kw kws ih =>
    rw [List.foldl_cons, if_neg (by simp [h kw (by simp)])]
    exact ih (fun k hk => h k (by simp [hk])) acc

theorem countMatches_zero (tn : String) (toks : List String) (kws : List String)
    (h : ∀ kw ∈ kws, kwHit tn toks kw = false) :
    countMatches tn toks kws = (0, []) :=
  countMatches_foldl_const tn toks kws h (0, [])

theorem foldl_pyMax_ge_init (l : List (String × Nat)) (b : String × Nat) :
    b.2 ≤ (l.foldl (fun b p => if b.2 < p.2 then p else b) b).2 := by
  induction l generalizing b with
  | nil => exact le_rfl
  | cons p l ih =>
    rw [List.foldl_cons]
    by_cases h : b.2 < p.2
    · rw [if_pos h]
      exact le_trans (le_of_lt h) (ih p)
    · rw [if_neg h]
      exact ih b

theorem foldl_pyMax_ge_mem (l : List (String × Nat)) (b : String × Nat) :
    ∀ p ∈ l, p.2 ≤ (l.foldl (fun b p => if b.2 < p.2 then p else b) b).2 := by
  induction l generalizing b with
  | nil => intro p hp; cases hp
  | cons q l ih =>
    intro p hp
    rw [List.foldl_cons]
    rcases List.mem_cons.mp hp with rfl | hp'
    · by_cases h : b.2 < p.2
      · rw [if_pos h]
        exact foldl_pyMax_ge_init l p
      · rw [if_neg h]
        exact le_trans (le_of_not_lt h) (foldl_pyMax_ge_init l b)
    · exact ih _ p hp'

theorem pyMaxFst_ge (l : List (String × Nat)) : ∀ p ∈ l, p.2 ≤ (pyMaxFst l).2 :=
  foldl_pyMax_ge_mem l (l.headD ("", 0))

theorem foldl_pyMax_mem (l : List (String × Nat)) (b : String × Nat) :
    l.foldl (fun b p => if b.2 < p.2 then p else b) b = b ∨
      l.foldl (fun b p => if b.2 < p.2 then p else b) b ∈ l := by
  induction l generalizing b with
  | nil => exact Or.inl rfl
  | cons q l ih =>
    rw [List.foldl_cons]
    by_cases h : b.2 < q.2
    · rw [if_pos h]
      rcases ih q with heq | hmem
      · exact Or.inr (by simp [heq])
      · exact Or.inr (List.mem_cons_of_mem _ hmem)
    · rw [if_neg h]
      rcases ih b with heq | hmem
      · exact Or.inl heq
      · exact Or.inr (List.mem_cons_of_mem _ hmem)

theorem pyMaxFst_mem {l : List (String × Nat)} (h : l ≠ []) : pyMaxFst l ∈ l := by
  obtain ⟨p, t, rfl⟩ := List.exists_cons_of_ne_nil h
  unfold pyMaxFst
  rcases foldl_pyMax_mem (p :: t) ((p :: t).headD ("", 0)) with heq | hmem
  · rw [heq]
    simp
  · exact hmem

theorem pyMaxFst_all_zero {l : List (String × Nat)} (h : ∀ p ∈ l, p.2 = 0) :
    (pyMaxFst l).2 = 0 := by
  rcases eq_or_ne l [] with rfl | hne
  · rfl
  · exact h _ (pyMaxFst_mem hne)

/-- The winning score is either the Python-`max` of the base scores or at
least 5 (after the direct-role boost). -/
theorem bestScoreOf_cases (t : String) :
    bestScoreOf t = (pyMaxFst (scoresOf t)).2 ∨ 5 ≤ bestScoreOf t := by
  unfold bestScoreOf classifyParts
  dsimp only
  cases checkRole (toLowerStr t) with
  | none => exact Or.inl rfl
  | some d =>
    dsimp only
    cases (scoresOf t).find? (fun p => p.1 == d) with
    | none => exact Or.inl rfl
    | some p =>
      dsimp only
      split
      · right
        dsimp only
        omega
      · exact Or.inl rfl

/-- If the best score is zero, then every domain's base score is zero. -/
theorem bestScore_zero_scores (t : String) (h : bestScoreOf t = 0) :
    ∀ p ∈ scoresOf t, p.2 = 0 := by
  rcases bestScoreOf_cases t with he | hge
  · intro p hp
    have := pyMaxFst_ge (scoresOf t) p hp
    omega
  · omega

theorem noKeywordHit_scores_zero (t : String) (h : noKeywordHit t = true) :
    ∀ p ∈ scoresOf t, p.2 = 0 := by
  intro p hp
  unfold scoresOf at hp
  rcases List.mem_map.mp hp with ⟨q, hq, rfl⟩
  unfold scoredOf at hq
  rcases List.mem_map.mp hq with ⟨d, hd, rfl⟩
  unfold noKeywordHit at h
  have hall := List.all_eq_true.mp h d hd
  have hkws := List.all_eq_true.mp hall
  have : countMatches (toLowerStr t) (pyTokens (toLowerStr t)) d.2 = (0, []) := by
    refine countMatches_zero _ _ _ (fun kw hkw => ?_)
    have := hkws kw hkw
    simpa using this
  simp [this]

theorem scoresOf_ne_nil (t : String) : scoresOf t ≠ [] := by
  unfold scoresOf scoredOf domainKeywords
  simp

theorem scoresOf_fst (t : String) :
    (scoresOf t).map (·.1) = domainKeywords.map (·.1) := by
  unfold scoresOf scoredOf
  simp [List.map_map]

/-- The winning domain reported by `classifyParts` is never `"general"`. -/
theorem classifyParts_fst_ne_general (t : String) :
    (classifyParts t).1.1 ≠ "general" := by
  have hbest : (pyMaxFst (scoresOf t)).1 ≠ "general" := by
    have hmem := pyMaxFst_mem (scoresOf_ne_nil t)
    have : (pyMaxFst (scoresOf t)).1 ∈ (scoresOf t).map (·.1) :=
      List.mem_map_of_mem _ hmem
    rw [scoresOf_fst] at this
    have hnames : ∀ x ∈ domainKeywords.map (·.1), x ≠ "general" := by decide
    exact hnames _ this
  have hrole : ∀ d, checkRole (toLowerStr t) = some d → d ≠ "general" := by
    intro d hd
    unfold checkRole at hd
    rcases Option.map_eq_some'.mp hd with ⟨q, hq, rfl⟩
    have hqmem := List.mem_of_find?_eq_some hq
    have : ∀ q ∈ roleKeywordMap, q.2 ≠ "general" := by decide
    exact this q hqmem
  unfold classifyParts
  dsimp only
  cases hr : checkRole (toLowerStr t) with
  | none => exact hbest
  | some d =>
    dsimp only
    cases (scoresOf t).find? (fun p => p.1 == d) with
    | none => exact hbest
    | some p =>
      dsimp only
      split
      · exact hrole d hr
      · exact hbest

theorem classify_zero_eq (t : String) (ht : ¬pyStripWs t = "") (hb : bestScoreOf t = 0) :
    classify t = ("general", 1/5, []) := by
  unfold classify
  rw [if_neg ht]
  simp only []
  rw [if_pos (by exact hb)]

theorem classify_conf_eq (t : String) (ht : ¬pyStripWs t = "") (hb : bestScoreOf t ≠ 0) :
    classify t = ((classifyParts t).1.1,
      confOf (bestScoreOf t) (roleBoostOf t), (classifyParts t).1.2.2) := by
  unfold classify
  rw [if_neg ht]
  simp only []
  rw [if_neg (by exact hb)]
  rfl

theorem classify_conf_val (t : String) (ht : ¬pyStripWs t = "") (hb : bestScoreOf t ≠ 0) :
    (classify t).2.1 = confOf (bestScoreOf t) (roleBoostOf t) := by
  rw [classify_conf_eq t ht hb]

/-! Lemmas for whitespace-only texts: a blank text has no tokens and
contains no keyword. -/

theorem stripWs_empty_all {t : String} (h : pyStripWs t = "") :
    ∀ c ∈ t.data, isPySpace c = true := by
  have hdata : stripList isPySpace t.data = [] := by
    have := congrArg String.data h
    simpa [pyStripWs] using this
  unfold stripList at hdata
  rw [List.reverse_eq_nil_iff] at hdata
  have h2 : ∀ c ∈ (t.data.dropWhile isPySpace).reverse, isPySpace c = true :=
    List.dropWhile_eq_nil_iff.mp hdata
  intro c hc
  rcases List.mem_append.mp
      ((List.takeWhile_append_dropWhile isPySpace t.data ▸ hc : _)) with h3 | h3
  · exact List.mem_takeWhile_imp h3
  · exact h2 c (List.mem_reverse.mpr h3)

theorem pyLowerChar_ws {c : Char} (h : isPySpace c = true) : pyLowerChar c = c := by
  have hc := h
  simp only [isPySpace, Bool.or_eq_true, decide_eq_true_eq] at hc
  rcases hc with (((((hc | hc) | hc) | hc) | hc) | hc) <;> subst hc <;> decide

theorem toLower_all_ws {t : String} (h : ∀ c ∈ t.data, isPySpace c = true) :
    ∀ c ∈ (toLowerStr t).data, isPySpace c = true := by
  intro c hc
  simp only [toLowerStr] at hc
  rcases List.mem_map.mp hc with ⟨y, hy, rfl⟩
  rw [pyLowerChar_ws (h y hy)]
  exact h y hy

theorem ws_not_alpha {c : Char} (h : isPySpace c = true) : isAsciiAlpha c = false := by
  have hc := h
  simp only [isPySpace, Bool.or_eq_true, decide_eq_true_eq] at hc
  rcases hc with (((((hc | hc) | hc) | hc) | hc) | hc) <;> subst hc <;> decide

theorem tokensGo_all_nonalpha (fuel : Nat) (l : List Char)
    (h : ∀ c ∈ l, isAsciiAlpha c = false) : tokensGo fuel l = [] := by
  induction fuel generalizing l with
  | zero => cases l <;> rfl
  | succ fuel ih =>
    cases l with
    | nil => rfl
    | cons c rest =>
      unfold tokensGo
      rw [if_neg (by simp [h c (by simp)])]
      exact ih rest (fun x hx => h x (by simp [hx]))

theorem isPrefixL_mem (n : List Char) :
    ∀ h : List Char, isPrefixL n h = true → ∀ c ∈ n, c ∈ h := by
  induction n with
  | nil => intro h _ c hc; cases hc
  | cons a as ih =>
    intro h hp c hc
    cases h with
    | nil => simp [isPrefixL] at hp
    | cons b bs =>
      have hp' : a = b ∧ isPrefixL as bs = true := by
        simpa [isPrefixL] using hp
      rcases List.mem_cons.mp hc with rfl | hc'
      · exact hp'.1 ▸ List.mem_cons_self _ _
      · exact List.mem_cons_of_mem _ (ih bs hp'.2 c hc')

theorem isInfixL_mem (n : List Char) :
    ∀ h : List Char, isInfixL n h = true → ∀ c ∈ n, c ∈ h := by
  intro h
  induction h with
  | nil =>
    intro hi c hc
    cases n with
    | nil => cases hc
    | cons a as => simp [isInfixL, isPrefixL] at hi
  | cons b bs ih =>
    intro hi c hc
    have hi' : isPrefixL n (b :: bs) = true ∨ isInfixL n bs = true := by
      have : (isPrefixL n (b :: bs) || isInfixL n bs) = true := by
        simpa [isInfixL] using hi
      rw [Bool.or_eq_true] at this
      exact this
    rcases hi' with hp | hrest
    · exact isPrefixL_mem n _ hp c hc
    · exact List.mem_cons_of_mem _ (ih hrest c hc)

theorem kw_has_non_ws :
    ∀ p ∈ domainKeywords, ∀ kw ∈ p.2,
      (toLowerStr kw).data.any (fun c => !isPySpace c) = true := by decide

theorem kwHit_all_ws {t : String} (hws : ∀ c ∈ (toLowerStr t).data, isPySpace c = true)
    {kw : String} (hkw : (toLowerStr kw).data.any (fun c => !isPySpace c) = true) :
    kwHit (toLowerStr t) (pyTokens (toLowerStr t)) kw = false := by
  unfold kwHit
  simp only []
  obtain ⟨c, hcmem, hcnws⟩ := List.any_eq_true.mp hkw
  split
  · rw [Bool.eq_false_iff]
    intro hc
    have : c ∈ (toLowerStr t).data := isInfixL_mem _ _ hc c hcmem
    have := hws c this
    simp [this] at hcnws
  · have htoks : pyTokens (toLowerStr t) = [] := by
      unfold pyTokens
      exact tokensGo_all_nonalpha _ _ (fun x hx => ws_not_alpha (hws x hx))
    rw [htoks]
    rfl

theorem blank_scores_zero {t : String} (h : pyStripWs t = "") :
    ∀ p ∈ scoresOf t, p.2 = 0 := by
  have hws := toLower_all_ws (stripWs_empty_all h)
  intro p hp
  unfold scoresOf at hp
  rcases List.mem_map.mp hp with ⟨q, hq, rfl⟩
  unfold scoredOf at hq
  rcases List.mem_map.mp hq with ⟨d, hd, rfl⟩
  have : countMatches (toLowerStr t) (pyTokens (toLowerStr t)) d.2 = (0, []) := by
    refine countMatches_zero _ _ _ (fun kw hkw => ?_)
    exact kwHit_all_ws hws (kw_has_non_ws d hd kw hkw)
  simp [this]

/-- C1 (amended): for every non-empty text in which no dictionary keyword
occurs *and no role keyword of the direct-override table occurs as a
substring*, `classify` returns `("general", 0.2, [])`; conversely,
`classify` returns domain `"general"` only when the total keyword score is
zero.  (Without the role-keyword condition the claim fails: a direct role
mention alone boosts a domain past zero, see the counterexample.) -/
theorem classify_general_characterization_amended :
    (∀ t : String, pyStripWs t ≠ "" → noKeywordHit t = true →
        checkRole (toLowerStr t) = none → classify t = ("general", 1/5, [])) ∧
    (∀ t : String, (classify t).1 = "general" → totalScore t = 0) := by
  constructor
  · intro t ht hkw hrole
    have hzero : ∀ p ∈ scoresOf t, p.2 = 0 := noKeywordHit_scores_zero t hkw
    have hbs : bestScoreOf t = 0 := by
      unfold bestScoreOf classifyParts
      rw [hrole]
      dsimp only
      exact pyMaxFst_all_zero hzero
    exact classify_zero_eq t ht hbs
  · intro t hgen
    by_cases ht : pyStripWs t = ""
    · exact List.sum_eq_zero (by
        intro x hx
        rcases List.mem_map.mp hx with ⟨p, hp, rfl⟩
        exact blank_scores_zero ht p hp)
    · by_cases hbs : bestScoreOf t = 0
      · exact List.sum_eq_zero (by
          intro x hx
          rcases List.mem_map.mp hx with ⟨p, hp, rfl⟩
          exact bestScore_zero_scores t hbs p hp)
      · exfalso
        rw [classify_conf_eq t ht hbs] at hgen
        exact classifyParts_fst_ne_general t hgen

theorem classify_general_characterization_witness :
    classify "zzz qqq" = ("general", 1/5, []) ∧ totalScore "  " = 0 :=
  ⟨classify_general_characterization_amended.1 "zzz qqq" (by decide) (by decide) (by decide),
   classify_general_characterization_amended.2 "  " (by decide)⟩

/-- C1 counterexample: `"recruiter"` contains no dictionary keyword of any
domain, yet `classify` does not return `"general"`: the direct
role-keyword table maps the substring `"recruiter"` to `"hr"` and its `+5`
boost wins. -/
theorem classify_general_counterexample :
    pyStripWs "recruiter" ≠ "" ∧ noKeywordHit "recruiter" = true ∧
    (classify "recruiter").1 = "hr" ∧ (classify "recruiter").1 ≠ "general" :=
  ⟨by decide, by decide, by decide, by decide⟩

/-! ## Claim C4 -/

/-- C4 (amended): holding the direct-role-bonus status fixed, and
restricted to inputs whose winning score is nonzero (both inputs on the
scaled-confidence path rather than the fixed `0.2` zero-score sentinel),
the confidence returned by `classify` is monotonically non-decreasing in
the winning score, up to the clamp at 1.  Both restrictions are necessary:
the flat `+0.3` bonus can push a lower-scoring input above a
higher-scoring one, and the `0.2` sentinel for a zero score exceeds the
scaled confidence `5/82` of score 1 — see the counterexample for both
failure modes. -/
theorem classify_confidence_monotone_amended (t1 t2 : String)
    (h1 : pyStripWs t1 ≠ "") (h2 : pyStripWs t2 ≠ "")
    (hb1 : bestScoreOf t1 ≠ 0) (hb2 : bestScoreOf t2 ≠ 0)
    (hrole : roleBoostOf t1 = roleBoostOf t2)
    (hle : bestScoreOf t1 ≤ bestScoreOf t2) :
    (classify t1).2.1 ≤ (classify t2).2.1 := by
  rw [classify_conf_eq t1 h1 hb1, classify_conf_eq t2 h2 hb2]
  dsimp only
  rw [hrole]
  exact confOf_mono hle _

theorem classify_confidence_monotone_witness :
    (classify "python").2.1 ≤ (classify "python java").2.1 :=
  classify_confidence_monotone_amended "python" "python java"
    (by decide) (by decide) (by decide) (by decide) (by decide) (by decide)

/-- C4 counterexample, two independent failure modes of the claim as
stated.  First, the role bonus: `"business analyst"` wins with (boosted)
score 5 and `"python java django flask aws"` wins with raw score 5, yet
the former gets the `+0.3` direct-role bonus and ends with a strictly
larger confidence — so confidence is not monotone in the winning score
alone (nor in the raw pre-boost score, which is 0 for the former input).
Second, the zero-score sentinel: `"zzz"` and `"python"` are both
non-blank with equal (absent) role-bonus status and winning scores
0 ≤ 1, yet `classify "python"` has confidence `5/82 ≈ 0.061`, strictly
below the `0.2` sentinel of `classify "zzz"` — so monotonicity also fails
across the zero-score boundary. -/
theorem classify_confidence_monotone_counterexample :
    (bestScoreOf "business analyst" ≤ bestScoreOf "python java django flask aws" ∧
      (pyMaxFst (scoresOf "business analyst")).2 = 0 ∧
      (classify "python java django flask aws").2.1 < (classify "business analyst").2.1) ∧
    (pyStripWs "zzz" ≠ "" ∧ pyStripWs "python" ≠ "" ∧
      roleBoostOf "zzz" = roleBoostOf "python" ∧
      bestScoreOf "zzz" ≤ bestScoreOf "python" ∧
      (classify "python").2.1 < (classify "zzz").2.1) := by
  have hrolePart :
      (classify "python java django flask aws").2.1 < (classify "business analyst").2.1 := by
    have hA : (classify "business analyst").2.1 = confOf 5 true := by
      rw [classify_conf_val _ (by decide) (by decide),
        show bestScoreOf "business analyst" = 5 from by decide,
        show roleBoostOf "business analyst" = true from by decide]
    have hB : (classify "python java django flask aws").2.1 = confOf 5 false := by
      rw [classify_conf_val _ (by decide) (by decide),
        show bestScoreOf "python java django flask aws" = 5 from by decide,
        show roleBoostOf "python java django flask aws" = false from by decide]
    have h1 : confBase 5 = 25/82 := by
      rw [confBase, maxPossible_eq]
      rw [min_eq_right (by norm_num)]
      norm_num
    have h2 : confOf 5 false = 207/410 := by
      rw [confOf, if_pos (by norm_num), confRole, if_neg (by simp), h1]
      rw [min_eq_right (by norm_num)]
      norm_num
    have h3 : confOf 5 true = 33/41 := by
      rw [confOf, if_pos (by norm_num), confRole, if_pos rfl, h1]
      rw [min_eq_right (by norm_num), min_eq_right (by norm_num)]
      norm_num
    rw [hA, hB, h2, h3]
    norm_num
  have hsentinelPart : (classify "python").2.1 < (classify "zzz").2.1 := by
    have hz : (classify "zzz").2.1 = 1/5 := by
      rw [classify_zero_eq "zzz" (by decide) (by decide)]
    have hp : (classify "python").2.1 = confOf 1 false := by
      rw [classify_conf_val _ (by decide) (by decide),
        show bestScoreOf "python" = 1 from by decide,
        show roleBoostOf "python" = false from by decide]
    have h4 : confOf 1 false = 5/82 := by
      rw [confOf, if_neg (by norm_num), confRole, if_neg (by simp), confBase, maxPossible_eq]
      rw [min_eq_right (by norm_num)]
      norm_num
    rw [hz, hp, h4]
    norm_num
  exact ⟨⟨by decide, by decide, hrolePart⟩,
    by decide, by decide, by decide, by decide, hsentinelPart⟩

/-! ## Claim C2 -/

theorem vecNormalize_length (v : List ℝ) : (vecNormalize v).length = v.length := by
  simp [vecNormalize]

theorem simE_ok (q e : List ℝ) (h : e.length = q.length) :
    simE q e = .ok (simVal q e) := by
  unfold simE dotE simVal
  rw [if_pos (by rw [vecNormalize_length, vecNormalize_length, h])]

/-- With matching dimensions, the filter-and-score loop raises nothing and
returns exactly the qualifying items, in insertion order, each paired with
its similarity. -/
theorem collectMatches_ok (q : List ℝ) (m : ℝ) (w : Metadata) (items : List StoredItem)
    (hdim : ∀ it ∈ items, it.embedding.length = q.length) :
    collectMatches q m w items =
      .ok ((items.filter (fun it => decide (qualifies q m w it))).map
        (fun it => (it, simVal q it.embedding))) := by
  induction items with
  | nil => rfl
  | cons it rest ih =>
    have hrest := ih (fun x hx => hdim x (List.mem_cons_of_mem _ hx))
    unfold collectMatches
    rw [simE_ok q it.embedding (hdim it (List.mem_cons_self _ _)), hrest]
    by_cases hw : whereOk w it.metadata = true
    · rw [if_pos hw]
      dsimp only
      by_cases hs : m ≤ simVal q it.embedding
      · have hq : decide (qualifies q m w it) = true := by
          simp [qualifies, hw, hs]
        have hfil : List.filter (fun x => decide (qualifies q m w x)) (it :: rest)
            = it :: List.filter (fun x => decide (qualifies q m w x)) rest := by
          simp [List.filter_cons, hq]
        rw [hfil, if_pos hs, List.map_cons]
      · have hq : decide (qualifies q m w it) = false := by
          simp [qualifies, hs]
        have hfil : List.filter (fun x => decide (qualifies q m w x)) (it :: rest)
            = List.filter (fun x => decide (qualifies q m w x)) rest := by
          simp [List.filter_cons, hq]
        rw [hfil, if_neg hs]
    · rw [if_neg hw]
      have hq : decide (qualifies q m w it) = false := by
        simp only [qualifies, decide_eq_false_iff_not, not_and]
        intro hc
        exact absurd hc hw
      have hfil : List.filter (fun x => decide (qualifies q m w x)) (it :: rest)
          = List.filter (fun x => decide (qualifies q m w x)) rest := by
        simp [List.filter_cons, hq]
      rw [hfil]

theorem round4_mono {x y : ℝ} (h : x ≤ y) : round4 x ≤ round4 y := by
  unfold round4
  have hr : round (x * 10000) ≤ round (y * 10000) := by
    rw [round_eq, round_eq]
    exact Int.floor_le_floor (by linarith)
  have hc : ((round (x * 10000) : ℤ) : ℝ) ≤ ((round (y * 10000) : ℤ) : ℝ) :=
    Int.cast_le.mpr hr
  exact (div_le_div_right (by norm_num)).mpr hc

theorem searchSimilar_eq (items : List StoredItem) (q : List ℝ) (topK : Nat)
    (minSim : ℝ) (w : Metadata)
    (hdim : ∀ it ∈ items, it.embedding.length = q.length) :
    searchSimilar items q topK minSim w
      = ((List.insertionSort simGE
            ((items.filter (fun it => decide (qualifies q minSim w it))).map
              (fun it => (it, simVal q it.embedding)))).take topK).map
          (fun p => mkRec p.1 p.2) := by
  unfold searchSimilar innerSearch
  rw [collectMatches_ok q minSim w items hdim]

/-- C2: on the in-memory fallback store (with embeddings of the query's
dimension), `search_similar` returns exactly `top_k` of the stored items
that pass the metadata equality filter and whose cosine similarity reaches
`min_similarity` — as many as qualify, up to `top_k` — ordered by
similarity descending, keeping only top-scoring ones (any qualifying item
left out scores no better than every returned one), with each reported
similarity rounded to 4 decimal places. -/
theorem searchSimilar_fallback_spec (items : List StoredItem) (q : List ℝ)
    (topK : Nat) (minSim : ℝ) (w : Metadata)
    (hdim : ∀ it ∈ items, it.embedding.length = q.length) :
    (searchSimilar items q topK minSim w).length
        = min topK ((items.filter (fun it => decide (qualifies q minSim w it))).length) ∧
    (searchSimilar items q topK minSim w).Pairwise
        (fun r1 r2 => r2.similarity ≤ r1.similarity) ∧
    (∀ r ∈ searchSimilar items q topK minSim w,
        ∃ it ∈ items, qualifies q minSim w it ∧ r = mkRec it (simVal q it.embedding)) ∧
    (∀ it ∈ items, qualifies q minSim w it →
        mkRec it (simVal q it.embedding) ∈ searchSimilar items q topK minSim w ∨
        ∀ r ∈ searchSimilar items q topK minSim w,
          round4 (simVal q it.embedding) ≤ r.similarity) := by
  rw [searchSimilar_eq items q topK minSim w hdim]
  set qual := items.filter (fun it => decide (qualifies q minSim w it)) with hqual
  set scored := qual.map (fun it => (it, simVal q it.embedding)) with hscored
  set sorted := List.insertionSort simGE scored with hsortedDef
  have hsort : List.Pairwise simGE sorted := List.sorted_insertionSort simGE scored
  have hperm : sorted.Perm scored := List.perm_insertionSort simGE scored
  refine ⟨?_, ?_, ?_, ?_⟩
  · rw [List.length_map, List.length_take, hperm.length_eq, hscored, List.length_map]
  · rw [List.pairwise_map]
    exact (hsort.sublist (List.take_sublist topK sorted)).imp
      (fun hab => round4_mono hab)
  · intro r hr
    rcases List.mem_map.mp hr with ⟨p, hp, rfl⟩
    have hpsort : p ∈ sorted := List.mem_of_mem_take hp
    have hpscored : p ∈ scored := hperm.mem_iff.mp hpsort
    rw [hscored] at hpscored
    rcases List.mem_map.mp hpscored with ⟨it, hit, rfl⟩
    rw [hqual] at hit
    have hitq := List.mem_filter.mp hit
    exact ⟨it, hitq.1, of_decide_eq_true hitq.2, rfl⟩
  · intro it hit hq
    have hpair : (it, simVal q it.embedding) ∈ scored := by
      rw [hscored, hqual]
      exact List.mem_map_of_mem _ (List.mem_filter.mpr ⟨hit, decide_eq_true hq⟩)
    have hpairsorted : (it, simVal q it.embedding) ∈ sorted := hperm.mem_iff.mpr hpair
    have hsplit := List.take_append_drop topK sorted
    rcases List.mem_append.mp (hsplit ▸ hpairsorted) with htk | hdp
    · exact Or.inl (List.mem_map_of_mem _ htk)
    · right
      intro r hr
      rcases List.mem_map.mp hr with ⟨p', hp', rfl⟩
      have hpw : List.Pairwise simGE (sorted.take topK ++ sorted.drop topK) := by
        rw [hsplit]
        exact hsort
      have hcross := (List.pairwise_append.mp hpw).2.2 p' hp' _ hdp
      exact round4_mono hcross

/-- A concrete stored item for the C2 witness. -/
def witnessItem : StoredItem :=
  ⟨"r1", [0], "doc", []⟩

theorem searchSimilar_fallback_spec_witness :
    (searchSimilar [witnessItem] [0] 3 0 []).length
      = min 3 (([witnessItem].filter
          (fun it => decide (qualifies [0] 0 [] it))).length) :=
  (searchSimilar_fallback_spec [witnessItem] [0] 3 0 []
    (by intro it hit; simp only [List.mem_singleton] at hit; subst hit; rfl)).1

end ResumeMatcher
